import Mathlib

/-!
Shallow embedding of the scene-tree core of `src/src/App.tsx`
(an in-browser editor composing primitive 3D shapes into a forest of
`Component` records, with recursive find / update / reorder operations
and a materializer that builds a three.js scene graph for export).

Numbers stored in transform tuples are modelled as `Rat`; the program
only stores and copies them, never computes with them.
-/

namespace ThreeApp

/-- A 3-tuple `[number, number, number]` as used for position, rotation, scale. -/
abbrev V3 := Rat × Rat × Rat

/-- `type PrimitiveType = 'cube' | 'sphere' | 'cylinder' | 'cone' | 'd20'` -/
inductive PrimitiveType where
  | cube
  | sphere
  | cylinder
  | cone
  | d20

/-- The `type` field of a `Component`: `PrimitiveType | 'group'`. -/
inductive CType where
  | prim (p : PrimitiveType)
  | group

/-- The `Component` record of `src/src/types.tsx` / `App.tsx`:
`{ id, name, type, position, rotation, scale, children }`. -/
inductive Node where
  | mk (id name : String) (ctype : CType) (position rotation scale : V3)
      (children : List Node)

def Node.id : Node → String
  | .mk i _ _ _ _ _ _ => i

def Node.name : Node → String
  | .mk _ n _ _ _ _ _ => n

def Node.ctype : Node → CType
  | .mk _ _ t _ _ _ _ => t

def Node.position : Node → V3
  | .mk _ _ _ p _ _ _ => p

def Node.rotation : Node → V3
  | .mk _ _ _ _ r _ _ => r

def Node.scale : Node → V3
  | .mk _ _ _ _ _ s _ => s

def Node.children : Node → List Node
  | .mk _ _ _ _ _ _ c => c

/-- Replace the `children` field, as in `{ ...comp, children: ... }`. -/
def Node.setChildren : Node → List Node → Node
  | .mk i n t p r s _, c => .mk i n t p r s c

/-- `findComponentById` (App.tsx lines 195-204): depth-first search,
trying each root in order, descending into `children` before moving on
to later siblings. -/
def findComponentById (components : List Node) (id : String) : Option Node :=
  match components with
  | [] => none
  | .mk i n t p r s ch :: rest =>
    if i = id then some (.mk i n t p r s ch)
    else
      match findComponentById ch id with
      | some found => some found
      | none => findComponentById rest id

/-- The forest's nodes in depth-first pre-order (each node before its
descendants, descendants before later siblings), the order in which
`findComponentById` visits them. -/
def flattenForest : List Node → List Node
  | [] => []
  | .mk i n t p r s ch :: rest =>
    .mk i n t p r s ch :: (flattenForest ch ++ flattenForest rest)

/-- All ids occurring anywhere in the forest, in depth-first pre-order. -/
def idsOf : List Node → List String
  | [] => []
  | .mk i _ _ _ _ _ ch :: rest => i :: (idsOf ch ++ idsOf rest)

/-- The ids of a single node's subtree (the node's own id first). -/
def nodeIds (c : Node) : List String := c.id :: idsOf c.children

/-- How many nodes of the forest carry the given id. -/
def countId : List Node → String → Nat
  | [], _ => 0
  | .mk i _ _ _ _ _ ch :: rest, id =>
    (if i = id then 1 else 0) + countId ch id + countId rest id

/-- `updateComponent`'s inner `updateRecursive` (App.tsx lines 303-316):
map over the forest, returning `updatedComponent` itself for the
component whose `id` matches `updatedComponent.id` (full record
replacement, `{ ...updatedComponent }`), rebuilding non-empty `children`
recursively, and keeping every other component as is. -/
def updateRecursive (updatedComponent : Node) : List Node → List Node
  | [] => []
  | .mk i n t p r s ch :: rest =>
    (if i = updatedComponent.id then updatedComponent
     else if ch.length > 0 then Node.mk i n t p r s (updateRecursive updatedComponent ch)
     else Node.mk i n t p r s ch) :: updateRecursive updatedComponent rest

/-- `reorder`'s inner `reorderList` (App.tsx lines 323-328), with exact JS
`splice` semantics. Entries of the result are `Option Node`: when
`fromIndex` is in range every entry is `some`, but when `fromIndex` is out
of range `splice` removes nothing, the destructured `moved` is the JS
`undefined`, and `undefined` is inserted at `toIndex` — modelled by a
`none` entry. The insertion index is clamped to the list length, as
`splice` does. -/
def reorderList (fromIndex toIndex : Nat) (list : List Node) : List (Option Node) :=
  let newList : List (Option Node) := list.map some
  let moved : Option Node := list[fromIndex]?
  let removed : List (Option Node) := newList.take fromIndex ++ newList.drop (fromIndex + 1)
  removed.take toIndex ++ moved :: removed.drop toIndex

/-- Reads a spliced list back as a `Component[]`: `some` exactly when no
`undefined` entry is present. The source stores the spliced array
directly into the typed forest; an array containing `undefined` is not
representable as `List Node`, so that outcome is marked `none`. -/
def asNodeList : List (Option Node) → Option (List Node)
  | [] => some []
  | none :: _ => none
  | some c :: rest => (asNodeList rest).map (c :: ·)

/-- `reorder`'s inner `updateRecursive` for a non-null `parentId`
(App.tsx lines 330-343): map over the forest, splicing the children of
the component whose `id` equals `parentId`, and otherwise descending into
non-empty `children`. `none` propagates the unrepresentable corrupted
array of an out-of-range splice. -/
def reorderAux (pid : String) (fromIndex toIndex : Nat) : List Node → Option (List Node)
  | [] => some []
  | .mk i n t p r s ch :: rest =>
    let comp : Option Node :=
      if i = pid then
        (asNodeList (reorderList fromIndex toIndex ch)).map (Node.mk i n t p r s)
      else if ch.length > 0 then
        (reorderAux pid fromIndex toIndex ch).map (Node.mk i n t p r s)
      else some (Node.mk i n t p r s ch)
    match comp, reorderAux pid fromIndex toIndex rest with
    | some c, some cs => some (c :: cs)
    | _, _ => none

/-- `reorder` (App.tsx lines 318-346): the dispatch `if (!parentId)` is a
JS falsiness test, true both for `null` and for the empty string — in
either case the ROOT sequence is spliced; only a non-empty `parentId`
descends looking for the parent node whose children are spliced. -/
def reorder (parentId : Option String) (fromIndex toIndex : Nat)
    (components : List Node) : Option (List Node) :=
  match parentId with
  | none => asNodeList (reorderList fromIndex toIndex components)
  | some pid =>
    if pid = "" then asNodeList (reorderList fromIndex toIndex components)
    else reorderAux pid fromIndex toIndex components

/-- Specification-side list move, written from the spec's words: remove
the element at `fromIndex` and reinsert it at `toIndex` in the same
sequence, shifting intermediate elements (standard list-move semantics,
not a swap). Used to compare `reorderList` against the spec. -/
def specMove (fromIndex toIndex : Nat) (l : List Node) : List Node :=
  match l[fromIndex]? with
  | none => l
  | some x =>
    let removed := l.eraseIdx fromIndex
    removed.take toIndex ++ x :: removed.drop toIndex

/-- The string form of each primitive kind, as written in the source's
union type `'cube' | 'sphere' | 'cylinder' | 'cone' | 'd20'`. -/
def kindString : PrimitiveType → String
  | .cube => "cube"
  | .sphere => "sphere"
  | .cylinder => "cylinder"
  | .cone => "cone"
  | .d20 => "d20"

/-- `type.charAt(0).toUpperCase() + type.slice(1)` (App.tsx line 293). -/
def jsCapitalize (s : String) : String :=
  match s.data with
  | [] => ""
  | c :: cs => String.mk (c.toUpper :: cs)

/-- The fresh `Component` built by `addPrimitive` (App.tsx lines 290-299).
The randomly generated id (`Math.random().toString(36).substring(2, 9)`)
is modelled as an explicit parameter. -/
def newComponent (id : String) (ty : PrimitiveType) : Node :=
  .mk id (jsCapitalize (kindString ty)) (.prim ty) (0, 0, 0) (0, 0, 0) (1, 1, 1) []

/-- `addPrimitive` (App.tsx lines 290-301): `setModel(prev => [...prev, newComponent])`. -/
def addPrimitive (id : String) (ty : PrimitiveType) (model : List Node) : List Node :=
  model ++ [newComponent id ty]

/-- The node of a forest at a path of 0-based sibling indices (root index
first, then an index into each successive `children` sequence). -/
def getPath : List Node → List Nat → Option Node
  | _, [] => none
  | comps, [j] => comps[j]?
  | comps, j :: k :: p =>
    match comps[j]? with
    | none => comps[j]?
    | some c => getPath c.children (k :: p)

/-- Replace the node at a path with `u`, rebuilding only the records on
the path (their `children` pointer) and leaving every other node, its
position among its siblings, and its subtree in place. This is the
specification-side description of what a by-id replacement may touch. -/
def setPath (u : Node) : List Node → List Nat → List Node
  | comps, [] => comps
  | comps, [j] => comps.set j u
  | comps, j :: k :: p =>
    match comps[j]? with
    | none => comps
    | some c => comps.set j (c.setChildren (setPath u c.children (k :: p)))

-- ----------------------
-- Scene materialization (`onExport`'s `buildScene`, App.tsx lines 348-395)
-- ----------------------

/-- The geometry constructed for each kind in `buildScene`'s switch
(App.tsx lines 358-378): `BoxGeometry(1, 1, 1)`,
`SphereGeometry(1, 32, 32)`, `CylinderGeometry(1, 1, 2, 32)`,
`ConeGeometry(1, 2, 32)`, `IcosahedronGeometry(1, 0)`. -/
inductive Geometry where
  | box (width height depth : Rat)
  | sphereG (radius : Rat) (widthSegments heightSegments : Nat)
  | cylinderG (radiusTop radiusBottom height : Rat) (radialSegments : Nat)
  | coneG (radius height : Rat) (radialSegments : Nat)
  | icosahedronG (radius : Rat) (detail : Nat)

/-- A value-level view of the three.js objects `buildScene` attaches:
either a mesh carrying its geometry and transform, or a `THREE.Group`
holding the objects attached under it. -/
inductive SceneObj where
  | mesh (geometry : Geometry) (position rotation scale : V3)
  | group (children : List SceneObj)

def geomFor : PrimitiveType → Geometry
  | .cube => .box 1 1 1
  | .sphere => .sphereG 1 32 32
  | .cylinder => .cylinderG 1 1 2 32
  | .cone => .coneG 1 2 32
  | .d20 => .icosahedronG 1 0

/-- The mesh (if any) `buildScene` creates for one component: a primitive
kind yields its canonical geometry with the component's transform applied
(`mesh.position.set(...comp.position)` etc.); `'group'` and the switch's
`default` leave `mesh` null. -/
def meshFor (comp : Node) : Option SceneObj :=
  match comp.ctype with
  | .prim p => some (.mesh (geomFor p) comp.position comp.rotation comp.scale)
  | .group => none

/-- `buildScene` (App.tsx lines 353-393) as a pure value: the ordered list
of objects attached under `parent` — for each component, first its mesh
when there is one, then, when `children` is non-empty, a fresh group
holding the recursive build of the children. -/
def buildScene : List Node → List SceneObj
  | [] => []
  | .mk i n t p r s ch :: rest =>
    (match meshFor (.mk i n t p r s ch) with
     | some m => [m]
     | none => []) ++
    (if ch.length > 0 then [SceneObj.group (buildScene ch)] else []) ++
    buildScene rest

-- ----------------------
-- Heap-level view of `onExport`'s materialization (frame effect)
-- ----------------------

/-- A heap-resident object for the frame-effect model of `onExport`
(App.tsx lines 348-395): either one of the forest's `Component` records
(its fields, with `children` as heap addresses), or a three.js `Object3D`
allocated during the build — a mesh (`geometry = some _`) or a pure
container (`THREE.Group` / `THREE.Scene`, `geometry = none`). -/
inductive HObj where
  | comp (id name : String) (ctype : CType) (position rotation scale : V3)
      (childAddrs : List Nat)
  | obj3D (geometry : Option Geometry) (position rotation scale : V3)
      (childAddrs : List Nat)

/-- The object heap: addresses are indices, allocation appends. -/
abbrev Heap := List HObj

def allocH (h : Heap) (o : HObj) : Heap × Nat :=
  (h ++ [o], h.length)

/-- `obj.position.set(...)`, `obj.rotation.set(...)`, `obj.scale.set(...)`
performed on the object at address `a`. -/
def setTransformH (h : Heap) (a : Nat) (p r s : V3) : Heap :=
  match h[a]? with
  | some (.comp i n t _ _ _ cs) => h.set a (.comp i n t p r s cs)
  | some (.obj3D g _ _ _ cs) => h.set a (.obj3D g p r s cs)
  | none => h

/-- `parentObj.add(childObj)` performed on the object at address `a`. -/
def addChildH (h : Heap) (a child : Nat) : Heap :=
  match h[a]? with
  | some (.comp i n t p r s cs) => h.set a (.comp i n t p r s (cs ++ [child]))
  | some (.obj3D g p r s cs) => h.set a (.obj3D g p r s (cs ++ [child]))
  | none => h

/-- The mesh branch of heap-level `buildScene` for one component
(App.tsx lines 355-385): for a primitive kind, allocate a fresh
`THREE.Mesh` with the kind's canonical geometry (a fresh object starts
with the identity transform), write the component's transform onto it
(`mesh.position.set(...comp.position)` etc.), and attach it to `parent`;
for `'group'` (the switch's null branch) the heap is untouched. -/
def buildMeshH (t : CType) (p r s : V3) (parent : Nat) (h : Heap) : Heap :=
  match t with
  | .prim pk =>
    let alloc1 := allocH h (.obj3D (some (geomFor pk)) (0, 0, 0) (0, 0, 0) (1, 1, 1) [])
    addChildH (setTransformH alloc1.1 alloc1.2 p r s) parent alloc1.2
  | .group => h

/-- Heap-level `buildScene` (App.tsx lines 353-393): for each component
address, read the record, build its mesh via `buildMeshH`; when the
component has children, allocate a fresh `THREE.Group`, attach it to
`parent`, and recurse into the child addresses with the group as parent.
`fuel` bounds the recursion depth (the JS recursion terminates because
the forest is a tree; the frame theorem below holds for every fuel). An
address that does not hold a component record is skipped (unreachable
from a well-formed forest heap). -/
def buildSceneH (fuel : Nat) (comps : List Nat) (parent : Nat) (h : Heap) : Heap :=
  match fuel with
  | 0 => h
  | fuel' + 1 =>
    match comps with
    | [] => h
    | a :: rest =>
      match h[a]? with
      | some (.comp _ _ t p r s childAddrs) =>
        let h1 : Heap := buildMeshH t p r s parent h
        let h2 : Heap :=
          if childAddrs.length > 0 then
            let alloc2 := allocH h1 (.obj3D none (0, 0, 0) (0, 0, 0) (1, 1, 1) [])
            buildSceneH fuel' childAddrs alloc2.2 (addChildH alloc2.1 parent alloc2.2)
          else h1
        buildSceneH (fuel' + 1) rest parent h2
      | _ => buildSceneH (fuel' + 1) rest parent h
  termination_by (fuel, comps.length)

/-- The materialization run at the start of `onExport` (App.tsx lines
348-395): `const scene = new THREE.Scene()` then `buildScene(model,
scene)`. Returns the final heap and the scene's address. -/
def onExportBuild (fuel : Nat) (roots : List Nat) (h : Heap) : Heap × Nat :=
  let alloc0 := allocH h (.obj3D none (0, 0, 0) (0, 0, 0) (1, 1, 1) [])
  (buildSceneH fuel roots alloc0.2 alloc0.1, alloc0.2)

-- ----------------------
-- User-action sequences (for the id-uniqueness invariant)
-- ----------------------

/-- One Tree Store mutation, as triggered by the UI. For `add`, the
randomly generated id is the explicit first argument. -/
inductive Op where
  | add (id : String) (kind : PrimitiveType)
  | update (u : Node)
  | reorderOp (parentId : Option String) (fromIndex toIndex : Nat)

/-- One user action applied to the forest state. For `reorderOp`, when
the splice result is not a representable forest (out-of-range
`fromIndex`, see `reorderList`), the previous state is kept: the source
would instead store an array containing `undefined`, which the `Node`
type cannot hold; either way the collection of real nodes — and hence the
id invariant — is unaffected. -/
def applyOp (F : List Node) : Op → List Node
  | .add i k => addPrimitive i k F
  | .update u => updateRecursive u F
  | .reorderOp p f t => (reorder p f t F).getD F

def runOps (ops : List Op) : List Node :=
  ops.foldl applyOp []

/-- Boolean membership in a list of ids. -/
def memStr (s : String) : List String → Bool
  | [] => false
  | x :: rest => (x == s) || memStr s rest

/-- Boolean duplicate-freedom of a list of ids. -/
def nodupStr : List String → Bool
  | [] => true
  | x :: rest => !memStr x rest && nodupStr rest

/-- The side conditions under which one action preserves the id
invariant: a freshly generated id must not collide (`add`, the
collision-resistance the spec assumes of the generator); an update's
target id must exist in the forest and the replacement record's own
subtree ids must be duplicate-free and must not capture ids living
outside the replaced subtree. -/
def validOp (F : List Node) : Op → Bool
  | .add i _ => !memStr i (idsOf F)
  | .update u =>
    ((findComponentById F u.id).map (fun x =>
        nodupStr (nodeIds u) &&
          (nodeIds u).all (fun s => memStr s (nodeIds x) || !memStr s (idsOf F)))).getD
      false
  | .reorderOp _ _ _ => true

def validOps : List Node → List Op → Bool
  | _, [] => true
  | F, op :: ops => validOp F op && validOps (applyOp F op) ops

-- ----------------------
-- Basic lemmas
-- ----------------------

@[simp] theorem Node.id_mk (i n : String) (t : CType) (p r s : V3) (ch : List Node) :
    (Node.mk i n t p r s ch).id = i := rfl

@[simp] theorem Node.name_mk (i n : String) (t : CType) (p r s : V3) (ch : List Node) :
    (Node.mk i n t p r s ch).name = n := rfl

@[simp] theorem Node.ctype_mk (i n : String) (t : CType) (p r s : V3) (ch : List Node) :
    (Node.mk i n t p r s ch).ctype = t := rfl

@[simp] theorem Node.position_mk (i n : String) (t : CType) (p r s : V3) (ch : List Node) :
    (Node.mk i n t p r s ch).position = p := rfl

@[simp] theorem Node.rotation_mk (i n : String) (t : CType) (p r s : V3) (ch : List Node) :
    (Node.mk i n t p r s ch).rotation = r := rfl

@[simp] theorem Node.scale_mk (i n : String) (t : CType) (p r s : V3) (ch : List Node) :
    (Node.mk i n t p r s ch).scale = s := rfl

@[simp] theorem Node.children_mk (i n : String) (t : CType) (p r s : V3) (ch : List Node) :
    (Node.mk i n t p r s ch).children = ch := rfl

@[simp] theorem Node.setChildren_mk (i n : String) (t : CType) (p r s : V3)
    (ch ch' : List Node) : (Node.mk i n t p r s ch).setChildren ch' = .mk i n t p r s ch' := rfl

theorem Node.setChildren_children (c : Node) : c.setChildren c.children = c := by
  cases c
  rfl

/-- Induction over a forest: to prove `P` of every forest it suffices to
cover `[]` and the cons case, with the hypothesis available both for the
head's children and for the tail. -/
theorem forest_ind (P : List Node → Prop) (hnil : P [])
    (hcons : ∀ i n t p r s ch rest, P ch → P rest → P (Node.mk i n t p r s ch :: rest)) :
    ∀ F, P F
  | [] => hnil
  | .mk i n t p r s ch :: rest =>
    hcons i n t p r s ch rest (forest_ind P hnil hcons ch) (forest_ind P hnil hcons rest)

theorem idsOf_append (F G : List Node) : idsOf (F ++ G) = idsOf F ++ idsOf G := by
  induction F with
  | nil => simp [idsOf]
  | cons c rest ih =>
    cases c
    simp [idsOf, ih]

theorem idsOf_cons (c : Node) (rest : List Node) :
    idsOf (c :: rest) = nodeIds c ++ idsOf rest := by
  cases c
  simp [idsOf, nodeIds]

/-- `findComponentById` is exactly "first match, in depth-first pre-order":
it agrees with `find?` on the pre-order flattening of the forest. -/
theorem find_eq_flatten_find (F : List Node) (id : String) :
    findComponentById F id = (flattenForest F).find? (fun c => c.id == id) := by
  induction F using forest_ind with
  | hnil => simp [findComponentById, flattenForest]
  | hcons i n t p r s ch rest ihch ihrest =>
    rw [findComponentById, flattenForest]
    by_cases h : i = id
    · simp [h]
    · rw [List.find?_cons_of_neg _ (by simp [h]), List.find?_append, ← ihch, ← ihrest]
      simp only [if_neg h]
      cases findComponentById ch id <;> simp [Option.or]

theorem find_eq_none_iff (F : List Node) (id : String) :
    findComponentById F id = none ↔ id ∉ idsOf F := by
  induction F using forest_ind with
  | hnil => simp [findComponentById, idsOf]
  | hcons i n t p r s ch rest ihch ihrest =>
    rw [findComponentById, idsOf]
    by_cases h : i = id
    · simp [h]
    · simp only [if_neg h]
      cases hch : findComponentById ch id with
      | some c =>
        have hmem : id ∈ idsOf ch := by
          by_contra hm
          rw [ihch.mpr hm] at hch
          exact Option.noConfusion hch
        simp [hch, hmem]
      | none =>
        have hmem : id ∉ idsOf ch := ihch.mp hch
        simp [hch, ihrest, Ne.symm h, hmem]

theorem find_append (F G : List Node) (id : String) :
    findComponentById (F ++ G) id =
      (findComponentById F id).or (findComponentById G id) := by
  rw [find_eq_flatten_find, find_eq_flatten_find, find_eq_flatten_find]
  have hfl : flattenForest (F ++ G) = flattenForest F ++ flattenForest G := by
    induction F with
    | nil => simp [flattenForest]
    | cons c rest ih =>
      cases c
      simp [flattenForest, ih]
  rw [hfl, List.find?_append]

theorem update_not_present (u : Node) (F : List Node) (h : u.id ∉ idsOf F) :
    updateRecursive u F = F := by
  induction F using forest_ind with
  | hnil => rw [updateRecursive]
  | hcons i n t p r s ch rest ihch ihrest =>
    rw [idsOf] at h
    simp only [List.mem_cons, List.mem_append, not_or] at h
    rw [updateRecursive, if_neg (fun hh => h.1 hh.symm), ihrest h.2.2]
    by_cases hch : ch.length > 0
    · rw [if_pos hch, ihch h.2.1]
    · rw [if_neg hch]

theorem reorderAux_not_present (pid : String) (f t : Nat) (F : List Node)
    (h : pid ∉ idsOf F) : reorderAux pid f t F = some F := by
  induction F using forest_ind with
  | hnil => rw [reorderAux]
  | hcons i n ty p r s ch rest ihch ihrest =>
    rw [idsOf] at h
    simp only [List.mem_cons, List.mem_append, not_or] at h
    rw [reorderAux, if_neg (Ne.symm h.1), ihrest h.2.2]
    by_cases hch : ch.length > 0
    · rw [if_pos hch, ihch h.2.1]
      rfl
    · rw [if_neg hch]

/-- C4: for every finite forest and every id, `findComponentById` performs
a depth-first pre-order traversal, returning the first node in that order
whose id matches, and an absent value (`none`, never an exception) when no
node at any depth matches; it is a total function of the forest. -/
theorem C4_findById_preorder (F : List Node) (id : String) :
    findComponentById F id = (flattenForest F).find? (fun c => c.id == id) ∧
      (findComponentById F id = none ↔ id ∉ idsOf F) :=
  ⟨find_eq_flatten_find F id, find_eq_none_iff F id⟩

/-- C3 (amended): for every forest `F` and id `i` appearing nowhere in
`F`, `updateById` with a node of id `i` returns `F` itself, and — for a
NON-EMPTY `i` — `reorder` with `parentId = i` (for any indices) returns
`F` itself, both as ordinary values with no error raised. The empty id
must be excluded from the `reorder` half: the source's dispatch
`if (!parentId)` treats `""` like null and splices the root sequence
instead of descending (see the counterexample). -/
theorem C3_missing_id_noop (F : List Node) (i : String) (h : i ∉ idsOf F) :
    (∀ u : Node, u.id = i → updateRecursive u F = F) ∧
      (i ≠ "" → ∀ f t, reorder (some i) f t F = some F) :=
  ⟨fun u hu => update_not_present u F (hu ▸ h),
   fun hne f t => by
    rw [reorder, if_neg hne]
    exact reorderAux_not_present i f t F h⟩

/-- C3 as literally stated is false for `i = ""`: on a two-root forest
that contains no node with id `""`, `reorder` with `parentId = ""` does
not return the forest unchanged — the JS falsiness dispatch splices the
root sequence, swapping the two roots. -/
theorem C3_missing_id_noop_counterexample :
    ("" ∉ idsOf [newComponent "a" PrimitiveType.cube, newComponent "b" PrimitiveType.sphere]) ∧
      reorder (some "") 1 0
          [newComponent "a" PrimitiveType.cube, newComponent "b" PrimitiveType.sphere] =
        some [newComponent "b" PrimitiveType.sphere, newComponent "a" PrimitiveType.cube] ∧
      reorder (some "") 1 0
          [newComponent "a" PrimitiveType.cube, newComponent "b" PrimitiveType.sphere] ≠
        some [newComponent "a" PrimitiveType.cube, newComponent "b" PrimitiveType.sphere] := by
  refine ⟨?_, ?_, ?_⟩
  · simp [idsOf, newComponent, jsCapitalize, kindString]
  · rw [reorder, if_pos rfl, reorderList]
    simp [asNodeList]
  · rw [reorder, if_pos rfl, reorderList]
    simp [asNodeList, newComponent]

/-- Sample forest used by witnesses: a group root holding one cube child. -/
def exChild : Node := .mk "b" "Cube" (.prim .cube) (2, 0, 0) (0, 0, 0) (1, 1, 1) []

def exRoot : Node := .mk "a" "Group" .group (0, 0, 0) (0, 0, 0) (1, 1, 1) [exChild]

def exF : List Node := [exRoot]

theorem C3_missing_id_noop_witness :
    updateRecursive (Node.mk "z" "Z" .group (0, 0, 0) (0, 0, 0) (1, 1, 1) []) exF = exF ∧
      reorder (some "z") 0 1 exF = some exF := by
  have h : "z" ∉ idsOf exF := by
    simp [exF, exRoot, exChild, idsOf]
  exact ⟨(C3_missing_id_noop exF "z" h).1 _ rfl,
    (C3_missing_id_noop exF "z" h).2 (by decide) 0 1⟩

/-- C5: `addPrimitive` appends exactly one new node at the end of the
root sequence, with the requested kind, the capitalized kind string as
name, position `(0,0,0)`, rotation `(0,0,0)`, scale `(1,1,1)` and empty
children; when the freshly generated id does not already occur in the
forest, `findComponentById` on the result resolves that id to the
just-added node; all pre-existing nodes are kept verbatim (the old forest
is an unchanged prefix). -/
theorem C5_addRoot_appends (F : List Node) (i : String) (k : PrimitiveType) :
    addPrimitive i k F = F ++ [newComponent i k] ∧
      ((newComponent i PrimitiveType.cube).name = "Cube" ∧
        (newComponent i PrimitiveType.sphere).name = "Sphere" ∧
        (newComponent i PrimitiveType.cylinder).name = "Cylinder" ∧
        (newComponent i PrimitiveType.cone).name = "Cone" ∧
        (newComponent i PrimitiveType.d20).name = "D20") ∧
      ((newComponent i k).ctype = .prim k ∧
        (newComponent i k).position = (0, 0, 0) ∧
        (newComponent i k).rotation = (0, 0, 0) ∧
        (newComponent i k).scale = (1, 1, 1) ∧
        (newComponent i k).children = []) ∧
      (i ∉ idsOf F →
        findComponentById (addPrimitive i k F) i = some (newComponent i k)) := by
  refine ⟨rfl, ⟨rfl, rfl, rfl, rfl, rfl⟩, ⟨rfl, rfl, rfl, rfl, rfl⟩, fun h => ?_⟩
  rw [addPrimitive, find_append, (find_eq_none_iff F i).mpr h, Option.or]
  simp [newComponent, findComponentById]

theorem C5_addRoot_appends_witness :
    findComponentById (addPrimitive "c" PrimitiveType.sphere exF) "c" =
      some (newComponent "c" PrimitiveType.sphere) := by
  have h : "c" ∉ idsOf exF := by
    simp [exF, exRoot, exChild, idsOf]
  exact (C5_addRoot_appends exF "c" PrimitiveType.sphere).2.2.2 h

/-- C9: for a sibling sequence of length `n` and any `fromIndex ≥ n`,
the splice-based `reorderList` neither leaves the sequence unchanged nor
signals an error: it removes nothing, then inserts the JS `undefined`
(modelled `none`) at `toIndex`, so the result has `n + 1` entries, one of
which is not a valid node. -/
theorem reorderList_oob (l : List Node) (f t : Nat) (h : l.length ≤ f) :
    reorderList f t l = (l.map some).take t ++ none :: (l.map some).drop t := by
  have hf : l[f]? = none := by
    rw [List.getElem?_eq_none_iff]
    exact h
  have hrem : (l.map some).take f ++ (l.map some).drop (f + 1) = l.map some := by
    rw [List.take_of_length_le (by simpa using h),
      List.drop_of_length_le (by simp; omega), List.append_nil]
  rw [reorderList]
  simp only [hf, hrem]

theorem C9_reorderList_out_of_range (l : List Node) (f t : Nat) (h : l.length ≤ f) :
    (reorderList f t l).length = l.length + 1 ∧
      none ∈ reorderList f t l ∧
      reorderList f t l ≠ l.map some := by
  have hEq := reorderList_oob l f t h
  refine ⟨?_, ?_, ?_⟩
  · rw [hEq]
    simp only [List.length_append, List.length_cons, List.length_take,
      List.length_drop, List.length_map]
    omega
  · rw [hEq]
    simp
  · intro heq
    have h1 := congrArg List.length heq
    rw [hEq] at h1
    simp only [List.length_append, List.length_cons, List.length_take,
      List.length_drop, List.length_map] at h1
    omega

theorem C9_reorderList_out_of_range_witness :
    (reorderList 2 0 [exChild]).length = 2 ∧
      none ∈ reorderList 2 0 [exChild] ∧
      reorderList 2 0 [exChild] ≠ [exChild].map some :=
  C9_reorderList_out_of_range [exChild] 2 0 (by simp)

theorem buildScene_cons (c : Node) (rest : List Node) :
    buildScene (c :: rest) =
      (meshFor c).toList ++
        (if c.children.length > 0 then [SceneObj.group (buildScene c.children)] else []) ++
        buildScene rest := by
  cases c with
  | mk i n t p r s ch =>
    rw [buildScene]
    cases hm : meshFor (Node.mk i n t p r s ch) <;> simp [hm]

/-- C7: for every node with one or more children — leaf shape or group
alike — materialization attaches a container holding the recursive build
of the children under the current parent, right after the node's own mesh
when there is one; a group node never yields a mesh of its own, while a
leaf-kind node always does, so a leaf-kind node with children contributes
both its mesh and a sibling container for its descendants. -/
theorem C7_children_get_container (c : Node) (rest : List Node) :
    (c.children.length > 0 →
      buildScene (c :: rest) =
        (meshFor c).toList ++
          [SceneObj.group (buildScene c.children)] ++ buildScene rest) ∧
      (c.ctype = .group → meshFor c = none) ∧
      (∀ p, c.ctype = .prim p →
        (meshFor c).toList =
          [SceneObj.mesh (geomFor p) c.position c.rotation c.scale]) := by
  refine ⟨fun h => ?_, fun h => ?_, fun p h => ?_⟩
  · rw [buildScene_cons, if_pos h]
  · rw [meshFor, h]
  · rw [meshFor, h]
    rfl

/-- A leaf-kind node that nevertheless has a child, used by witnesses. -/
def exLeafParent : Node :=
  .mk "d" "Cube" (.prim .cube) (0, 0, 0) (0, 0, 0) (1, 1, 1) [exChild]

theorem C7_children_get_container_witness :
    buildScene [exLeafParent] =
      (meshFor exLeafParent).toList ++
        [SceneObj.group (buildScene exLeafParent.children)] ++ buildScene [] ∧
      meshFor exRoot = none :=
  ⟨(C7_children_get_container exLeafParent []).1 (by simp [exLeafParent, exChild]),
   (C7_children_get_container exRoot []).2.1 rfl⟩

/-- C8: every leaf kind materializes exactly its canonical primitive —
cube: unit box; sphere: radius 1 with 32×32 tessellation; cylinder:
radius 1, height 2, 32 radial segments; cone: radius 1, height 2, 32
radial segments; d20: icosahedron of radius 1 at subdivision 0 — and the
resulting mesh carries the node's position, rotation and scale, attached
under the current parent (before any child container). -/
theorem C8_canonical_primitives (c : Node) (rest : List Node) :
    geomFor .cube = .box 1 1 1 ∧
      geomFor .sphere = .sphereG 1 32 32 ∧
      geomFor .cylinder = .cylinderG 1 1 2 32 ∧
      geomFor .cone = .coneG 1 2 32 ∧
      geomFor .d20 = .icosahedronG 1 0 ∧
      (∀ p, c.ctype = .prim p →
        buildScene (c :: rest) =
          SceneObj.mesh (geomFor p) c.position c.rotation c.scale ::
            ((if c.children.length > 0 then [SceneObj.group (buildScene c.children)] else []) ++
              buildScene rest)) := by
  refine ⟨rfl, rfl, rfl, rfl, rfl, fun p h => ?_⟩
  rw [buildScene_cons, meshFor, h]
  rfl

theorem C8_canonical_primitives_witness :
    buildScene [exChild] =
      SceneObj.mesh (geomFor .cube) exChild.position exChild.rotation exChild.scale ::
        ((if exChild.children.length > 0 then [SceneObj.group (buildScene exChild.children)] else []) ++
          buildScene []) :=
  (C8_canonical_primitives exChild []).2.2.2.2.2 PrimitiveType.cube rfl

theorem countId_eq_zero (F : List Node) (s : String) :
    countId F s = 0 ↔ s ∉ idsOf F := by
  induction F using forest_ind with
  | hnil => simp [countId, idsOf]
  | hcons i n t po ro sc ch rest ihch ihrest =>
    rw [countId, idsOf]
    by_cases h : i = s
    · subst h
      have hne : (if i = i then 1 else 0) + countId ch i + countId rest i ≠ 0 := by
        simp
      simp [hne]
    · have h' : ¬s = i := fun hsi => h hsi.symm
      simp [h, h', Nat.add_eq_zero, ihch, ihrest]

theorem getPath_cons_succ (c : Node) (F : List Node) (j : Nat) (q : List Nat) :
    getPath (c :: F) ((j + 1) :: q) = getPath F (j :: q) := by
  cases q <;> simp [getPath]

theorem setPath_cons_succ (u c : Node) (F : List Node) (j : Nat) (q : List Nat) :
    setPath u (c :: F) ((j + 1) :: q) = c :: setPath u F (j :: q) := by
  cases q with
  | nil => simp [setPath]
  | cons k q' =>
    rw [setPath, setPath]
    cases hj : F[j]? <;> simp [hj]

/-- After replacing the node at path `p`, the path resolves to the
replacement itself. -/
theorem getPath_setPath (u : Node) : ∀ (F : List Node) (p : List Nat) (X : Node),
    getPath F p = some X → getPath (setPath u F p) p = some u
  | F, [], X, h => by rw [getPath] at h; exact absurd h (by simp)
  | F, [j], X, h => by
    rw [getPath] at h
    have hj : j < F.length := (List.getElem?_eq_some.mp h).1
    rw [setPath, getPath, List.getElem?_set_self (by simpa using hj)]
  | F, j :: k :: p', X, h => by
    rw [getPath] at h
    cases hj : F[j]? with
    | none => rw [hj] at h; exact absurd h (by simp)
    | some c =>
      rw [hj] at h
      have hlt : j < F.length := (List.getElem?_eq_some.mp hj).1
      rw [setPath, hj, getPath, List.getElem?_set_self (by simpa using hlt)]
      cases c with
      | mk ci cn ct cp cr cs cch =>
        simpa using getPath_setPath u cch (k :: p') X (by simpa using h)

/-- Where the forest holds exactly one node with id `u.id`,
`updateRecursive` is precisely "replace the node at that node's path by
`u`": it also agrees with what `findComponentById` locates there. -/
theorem update_eq_setPath (u : Node) (F : List Node) (h : countId F u.id = 1) :
    ∃ p X, getPath F p = some X ∧ findComponentById F u.id = some X ∧
      X.id = u.id ∧ updateRecursive u F = setPath u F p := by
  induction F using forest_ind with
  | hnil => rw [countId] at h; omega
  | hcons i n t po ro sc ch rest ihch ihrest =>
    rw [countId] at h
    by_cases hi : i = u.id
    · rw [if_pos hi] at h
      have hch : countId ch u.id = 0 := by omega
      have hrest : countId rest u.id = 0 := by omega
      refine ⟨[0], .mk i n t po ro sc ch, by simp [getPath], ?_, hi, ?_⟩
      · rw [findComponentById, if_pos hi]
      · rw [updateRecursive, if_pos hi,
          update_not_present u rest ((countId_eq_zero rest u.id).mp hrest), setPath]
        simp
    · rw [if_neg hi] at h
      by_cases hin : countId ch u.id = 1
      · have hrest : countId rest u.id = 0 := by omega
        obtain ⟨q, X, hq, hfind, hXid, hup⟩ := ihch hin
        cases q with
        | nil => rw [getPath] at hq; exact absurd hq (by simp)
        | cons k q' =>
          refine ⟨0 :: k :: q', X, ?_, ?_, hXid, ?_⟩
          · rw [getPath]
            simpa using hq
          · rw [findComponentById, if_neg hi, hfind]
          · have hlen : ch.length > 0 := by
              cases ch with
              | nil => rw [countId] at hin; omega
              | cons a l => simp
            rw [updateRecursive, if_neg hi, if_pos hlen, hup,
              update_not_present u rest ((countId_eq_zero rest u.id).mp hrest), setPath]
            simp
      · have hin0 : countId ch u.id = 0 := by omega
        have hrest1 : countId rest u.id = 1 := by omega
        obtain ⟨q, X, hq, hfind, hXid, hup⟩ := ihrest hrest1
        cases q with
        | nil => rw [getPath] at hq; exact absurd hq (by simp)
        | cons j q' =>
          refine ⟨(j + 1) :: q', X, ?_, ?_, hXid, ?_⟩
          · rw [getPath_cons_succ]
            exact hq
          · rw [findComponentById, if_neg hi,
              (find_eq_none_iff ch u.id).mpr ((countId_eq_zero ch u.id).mp hin0)]
            simpa using hfind
          · rw [updateRecursive, if_neg hi, hup, setPath_cons_succ]
            by_cases hlen : ch.length > 0
            · rw [if_pos hlen,
                update_not_present u ch ((countId_eq_zero ch u.id).mp hin0)]
            · rw [if_neg hlen]

/-- C1: on a forest holding exactly one node with id `updatedNode.id`,
`updateById` equals the surgery that replaces the node at that node's
path by `updatedNode` verbatim (`setPath` rebuilds only the `children`
pointers along the path, so every other node keeps its record, its
position among its siblings, and its subtree); the path then resolves to
`updatedNode` itself, children included. -/
theorem C1_updateById_unique_replacement (u : Node) (F : List Node)
    (h : countId F u.id = 1) :
    ∃ p X, getPath F p = some X ∧ X.id = u.id ∧
      updateRecursive u F = setPath u F p ∧
      getPath (updateRecursive u F) p = some u := by
  obtain ⟨p, X, hp, _, hXid, hup⟩ := update_eq_setPath u F h
  exact ⟨p, X, hp, hXid, hup, hup ▸ getPath_setPath u F p X hp⟩

/-- A replacement record for the cube child `exChild`: same id, new position. -/
def exUpdate : Node := .mk "b" "Cube" (.prim .cube) (5, 0, 0) (0, 0, 0) (1, 1, 1) []

theorem C1_updateById_unique_replacement_witness :
    ∃ p X, getPath exF p = some X ∧ X.id = "b" ∧
      updateRecursive exUpdate exF = setPath exUpdate exF p ∧
      getPath (updateRecursive exUpdate exF) p = some exUpdate :=
  C1_updateById_unique_replacement exUpdate exF
    (by simp [exF, exRoot, exChild, exUpdate, countId])

theorem asNodeList_map_some (l : List Node) : asNodeList (l.map some) = some l := by
  induction l with
  | nil => rw [List.map_nil, asNodeList]
  | cons c rest ih => simp [asNodeList, ih]

theorem asNodeList_mem_none (l : List (Option Node)) (h : none ∈ l) :
    asNodeList l = none := by
  induction l with
  | nil => simp at h
  | cons o rest ih =>
    cases o with
    | none => rw [asNodeList]
    | some c =>
      have hr : none ∈ rest := by simpa using h
      simp [asNodeList, ih hr]

theorem cons_eraseIdx_perm : ∀ (l : List Node) (f : Nat) (x : Node),
    l[f]? = some x → List.Perm (x :: l.eraseIdx f) l
  | [], _, _, h => by simp at h
  | a :: l, 0, x, h => by
    simp only [List.getElem?_cons_zero, Option.some.injEq] at h
    subst h
    simp [List.eraseIdx]
  | a :: l, f + 1, x, h => by
    have h' : l[f]? = some x := by simpa using h
    have he : (a :: l).eraseIdx (f + 1) = a :: l.eraseIdx f := by
      simp [List.eraseIdx]
    rw [he]
    exact List.Perm.trans (List.Perm.swap a x _) ((cons_eraseIdx_perm l f x h').cons a)

theorem reorderList_eq_specMove (f t : Nat) (l : List Node) (h : f < l.length) :
    reorderList f t l = (specMove f t l).map some := by
  obtain ⟨x, hx⟩ : ∃ x, l[f]? = some x := ⟨_, List.getElem?_eq_getElem h⟩
  rw [reorderList, specMove, hx]
  simp only [List.eraseIdx_eq_take_drop_succ, List.map_append, List.map_take,
    List.map_drop, List.map_cons]

theorem specMove_perm (f t : Nat) (l : List Node) (h : f < l.length) :
    List.Perm (specMove f t l) l := by
  obtain ⟨x, hx⟩ : ∃ x, l[f]? = some x := ⟨_, List.getElem?_eq_getElem h⟩
  rw [specMove, hx]
  show List.Perm ((l.eraseIdx f).take t ++ x :: (l.eraseIdx f).drop t) l
  refine List.Perm.trans List.perm_middle ?_
  rw [List.take_append_drop]
  exact cons_eraseIdx_perm l f x hx

theorem reorder_none_eq (f t : Nat) (F : List Node) (hf : f < F.length) :
    reorder none f t F = some (specMove f t F) := by
  rw [reorder, reorderList_eq_specMove f t F hf, asNodeList_map_some]

theorem reorder_empty_eq (f t : Nat) (F : List Node) (hf : f < F.length) :
    reorder (some "") f t F = some (specMove f t F) := by
  rw [reorder, if_pos rfl, reorderList_eq_specMove f t F hf, asNodeList_map_some]

/-- Where the forest holds exactly one node with id `pid`, reordering the
children of `pid` is precisely "replace the node at that node's path by a
copy whose children were moved" — when `fromIndex` is in range; otherwise
the splice result is unrepresentable (`none`). -/
theorem reorder_eq_setPath (pid : String) (f t : Nat) (F : List Node)
    (h : countId F pid = 1) :
    ∃ p X, getPath F p = some X ∧ X.id = pid ∧
      reorderAux pid f t F =
        if f < X.children.length then
          some (setPath (X.setChildren (specMove f t X.children)) F p)
        else none := by
  induction F using forest_ind with
  | hnil => rw [countId] at h; omega
  | hcons i n ty po ro sc ch rest ihch ihrest =>
    rw [countId] at h
    by_cases hi : i = pid
    · rw [if_pos hi] at h
      have hch0 : countId ch pid = 0 := by omega
      have hrest0 : countId rest pid = 0 := by omega
      refine ⟨[0], .mk i n ty po ro sc ch, by simp [getPath], hi, ?_⟩
      rw [reorderAux, if_pos hi,
        reorderAux_not_present pid f t rest ((countId_eq_zero rest pid).mp hrest0)]
      by_cases hf : f < ch.length
      · rw [if_pos (by simpa using hf), reorderList_eq_specMove f t ch hf,
          asNodeList_map_some, setPath]
        simp
      · rw [if_neg (by simpa using hf),
          asNodeList_mem_none _ (by rw [reorderList_oob ch f t (by omega)]; simp)]
        rfl
    · rw [if_neg hi] at h
      by_cases hin : countId ch pid = 1
      · have hrest0 : countId rest pid = 0 := by omega
        obtain ⟨q, X, hq, hXid, haux⟩ := ihch hin
        cases q with
        | nil => rw [getPath] at hq; exact absurd hq (by simp)
        | cons k q' =>
          refine ⟨0 :: k :: q', X, ?_, hXid, ?_⟩
          · rw [getPath]
            simpa using hq
          · have hlen : ch.length > 0 := by
              cases ch with
              | nil => rw [countId] at hin; omega
              | cons a l => simp
            rw [reorderAux, if_neg hi, if_pos hlen, haux,
              reorderAux_not_present pid f t rest ((countId_eq_zero rest pid).mp hrest0)]
            by_cases hf : f < X.children.length
            · rw [if_pos hf, if_pos hf, setPath]
              simp
            · rw [if_neg hf, if_neg hf]
              rfl
      · have hch0 : countId ch pid = 0 := by omega
        have hrest1 : countId rest pid = 1 := by omega
        obtain ⟨q, X, hq, hXid, haux⟩ := ihrest hrest1
        cases q with
        | nil => rw [getPath] at hq; exact absurd hq (by simp)
        | cons j q' =>
          refine ⟨(j + 1) :: q', X, ?_, hXid, ?_⟩
          · rw [getPath_cons_succ]
            exact hq
          · have hhead :
                (if ch.length > 0 then
                  (reorderAux pid f t ch).map (Node.mk i n ty po ro sc)
                else some (Node.mk i n ty po ro sc ch)) =
                  some (Node.mk i n ty po ro sc ch) := by
              by_cases hlen : ch.length > 0
              · rw [if_pos hlen,
                  reorderAux_not_present pid f t ch ((countId_eq_zero ch pid).mp hch0)]
                rfl
              · rw [if_neg hlen]
            rw [reorderAux, if_neg hi, hhead, haux]
            by_cases hf : f < X.children.length
            · rw [if_pos hf, if_pos hf, setPath_cons_succ]
            · rw [if_neg hf, if_neg hf]

/-- C2: `reorder` applies standard list-move semantics (remove at
`fromIndex`, reinsert at `toIndex`, shifting intermediate elements — the
spec-side `specMove`) to the sibling sequence selected by `parentId`.
The selected sequence is the root sequence when `parentId` is null — and
likewise, by the JS falsiness of `if (!parentId)`, when it is the empty
string — and the children of the unique `parentId` node for a non-empty
`parentId`. When both indices are in range the multiset of sibling ids of
that sequence is unchanged; and on the two-root forest [cube, sphere],
`reorder(null, 1, 0)` yields root order [sphere, cube]. -/
theorem C2_reorder_list_move (F : List Node) (f t : Nat) :
    (∀ S : List Node, f < S.length → t < S.length →
      reorderList f t S = (specMove f t S).map some ∧
        List.Perm ((specMove f t S).map Node.id) (S.map Node.id)) ∧
      (f < F.length → reorder none f t F = some (specMove f t F) ∧
        reorder (some "") f t F = some (specMove f t F)) ∧
      (∀ pid, pid ≠ "" → countId F pid = 1 →
        ∃ p X, getPath F p = some X ∧ X.id = pid ∧
          (f < X.children.length →
            reorder (some pid) f t F =
              some (setPath (X.setChildren (specMove f t X.children)) F p))) ∧
      reorder none 1 0 [newComponent "c1" .cube, newComponent "s1" .sphere] =
        some [newComponent "s1" .sphere, newComponent "c1" .cube] := by
  refine ⟨fun S hf ht => ⟨reorderList_eq_specMove f t S hf,
      (specMove_perm f t S hf).map Node.id⟩,
    fun hf => ⟨reorder_none_eq f t F hf, reorder_empty_eq f t F hf⟩,
    fun pid hne hpid => ?_, ?_⟩
  · obtain ⟨p, X, hp, hXid, haux⟩ := reorder_eq_setPath pid f t F hpid
    exact ⟨p, X, hp, hXid, fun hf => by
      rw [reorder, if_neg hne, haux, if_pos hf]⟩
  · rw [reorder, reorderList]
    simp [asNodeList]

theorem C2_reorder_list_move_witness :
    reorder none 1 0 [newComponent "c1" PrimitiveType.cube,
        newComponent "s1" PrimitiveType.sphere] =
      some (specMove 1 0 [newComponent "c1" PrimitiveType.cube,
        newComponent "s1" PrimitiveType.sphere]) ∧
      reorder (some "") 1 0 [newComponent "c1" PrimitiveType.cube,
        newComponent "s1" PrimitiveType.sphere] =
      some (specMove 1 0 [newComponent "c1" PrimitiveType.cube,
        newComponent "s1" PrimitiveType.sphere]) :=
  (C2_reorder_list_move [newComponent "c1" PrimitiveType.cube,
      newComponent "s1" PrimitiveType.sphere] 1 0).2.1 (by simp)

-- ----------------------
-- Frame property of the heap-level materialization
-- ----------------------

/-- The two heaps agree on every address below `n`. -/
def AgreeBelow (n : Nat) (h h' : Heap) : Prop :=
  ∀ i, i < n → h'[i]? = h[i]?

theorem agreeBelow_refl (n : Nat) (h : Heap) : AgreeBelow n h h :=
  fun _ _ => rfl

theorem agreeBelow_trans {n : Nat} {h1 h2 h3 : Heap} (a : AgreeBelow n h1 h2)
    (b : AgreeBelow n h2 h3) : AgreeBelow n h1 h3 :=
  fun i hi => (b i hi).trans (a i hi)

theorem agreeBelow_append (n : Nat) (h : Heap) (l : List HObj) (hn : n ≤ h.length) :
    AgreeBelow n h (h ++ l) :=
  fun i hi => List.getElem?_append_left (by omega)

theorem agreeBelow_set (n : Nat) (h : Heap) (a : Nat) (o : HObj) (hn : n ≤ a) :
    AgreeBelow n h (h.set a o) :=
  fun i hi => List.getElem?_set_ne (by omega)

theorem length_setTransformH (h : Heap) (a : Nat) (p r s : V3) :
    (setTransformH h a p r s).length = h.length := by
  rw [setTransformH]
  cases ha : h[a]? with
  | none => rfl
  | some o => cases o <;> simp

theorem length_addChildH (h : Heap) (a child : Nat) :
    (addChildH h a child).length = h.length := by
  rw [addChildH]
  cases ha : h[a]? with
  | none => rfl
  | some o => cases o <;> simp

theorem agreeBelow_setTransformH (n : Nat) (h : Heap) (a : Nat) (p r s : V3)
    (hn : n ≤ a) : AgreeBelow n h (setTransformH h a p r s) := by
  rw [setTransformH]
  cases ha : h[a]? with
  | none => exact agreeBelow_refl n h
  | some o => cases o <;> exact agreeBelow_set n h a _ hn

theorem agreeBelow_addChildH (n : Nat) (h : Heap) (a child : Nat)
    (hn : n ≤ a) : AgreeBelow n h (addChildH h a child) := by
  rw [addChildH]
  cases ha : h[a]? with
  | none => exact agreeBelow_refl n h
  | some o => cases o <;> exact agreeBelow_set n h a _ hn

theorem length_buildMeshH (t : CType) (p r s : V3) (parent : Nat) (h : Heap) :
    h.length ≤ (buildMeshH t p r s parent h).length := by
  cases t with
  | group => rw [buildMeshH]
  | prim pk =>
    rw [buildMeshH, length_addChildH, length_setTransformH, allocH]
    simp

theorem agreeBelow_buildMeshH (n : Nat) (t : CType) (p r s : V3) (parent : Nat)
    (h : Heap) (hn : n ≤ h.length) (hp : n ≤ parent) :
    AgreeBelow n h (buildMeshH t p r s parent h) := by
  cases t with
  | group => rw [buildMeshH]; exact agreeBelow_refl n h
  | prim pk =>
    rw [buildMeshH]
    simp only [allocH]
    refine agreeBelow_trans
      (agreeBelow_append n h
        [HObj.obj3D (some (geomFor pk)) (0, 0, 0) (0, 0, 0) (1, 1, 1) []] hn) ?_
    refine agreeBelow_trans (agreeBelow_setTransformH n _ h.length p r s hn) ?_
    exact agreeBelow_addChildH n _ parent _ hp

/-- The heap-level build only allocates fresh objects and writes to fresh
addresses (or to the fresh parent handed down): the heap grows, and every
pre-existing address below `n` is untouched. -/
theorem buildSceneH_frame : ∀ (fuel : Nat) (comps : List Nat) (parent : Nat)
    (h : Heap) (n : Nat), n ≤ h.length → n ≤ parent →
    h.length ≤ (buildSceneH fuel comps parent h).length ∧
      AgreeBelow n h (buildSceneH fuel comps parent h)
  | 0, comps, parent, h, n, _, _ => by
    rw [buildSceneH]
    exact ⟨Nat.le_refl _, agreeBelow_refl n h⟩
  | fuel' + 1, [], parent, h, n, _, _ => by
    rw [buildSceneH]
    exact ⟨Nat.le_refl _, agreeBelow_refl n h⟩
  | fuel' + 1, a :: rest, parent, h, n, hn, hp => by
    cases ha : h[a]? with
    | none =>
      have hunf : buildSceneH (fuel' + 1) (a :: rest) parent h =
          buildSceneH (fuel' + 1) rest parent h := by
        rw [buildSceneH, ha]
      rw [hunf]
      exact buildSceneH_frame (fuel' + 1) rest parent h n hn hp
    | some o =>
      cases o with
      | obj3D g op orr os cs =>
        have hunf : buildSceneH (fuel' + 1) (a :: rest) parent h =
            buildSceneH (fuel' + 1) rest parent h := by
          rw [buildSceneH, ha]
        rw [hunf]
        exact buildSceneH_frame (fuel' + 1) rest parent h n hn hp
      | comp ci cn t p r s childAddrs =>
        have h1len : h.length ≤ (buildMeshH t p r s parent h).length :=
          length_buildMeshH t p r s parent h
        have h1agree : AgreeBelow n h (buildMeshH t p r s parent h) :=
          agreeBelow_buildMeshH n t p r s parent h hn hp
        by_cases hc : childAddrs.length > 0
        · have hunf : buildSceneH (fuel' + 1) (a :: rest) parent h =
              buildSceneH (fuel' + 1) rest parent
                (buildSceneH fuel' childAddrs ((buildMeshH t p r s parent h).length)
                  (addChildH ((buildMeshH t p r s parent h) ++
                      [HObj.obj3D none (0, 0, 0) (0, 0, 0) (1, 1, 1) []]) parent
                    ((buildMeshH t p r s parent h).length))) := by
            rw [buildSceneH, ha]
            simp only [if_pos hc, allocH]
          rw [hunf]
          have hbaselen :
              (addChildH ((buildMeshH t p r s parent h) ++
                  [HObj.obj3D none (0, 0, 0) (0, 0, 0) (1, 1, 1) []]) parent
                ((buildMeshH t p r s parent h).length)).length =
                (buildMeshH t p r s parent h).length + 1 := by
            rw [length_addChildH]
            simp
          have hbaseagree : AgreeBelow n (buildMeshH t p r s parent h)
              (addChildH ((buildMeshH t p r s parent h) ++
                  [HObj.obj3D none (0, 0, 0) (0, 0, 0) (1, 1, 1) []]) parent
                ((buildMeshH t p r s parent h).length)) := by
            refine agreeBelow_trans
              (agreeBelow_append n (buildMeshH t p r s parent h)
                [HObj.obj3D none (0, 0, 0) (0, 0, 0) (1, 1, 1) []] (by omega)) ?_
            exact agreeBelow_addChildH n _ parent _ hp
          obtain ⟨hlen2, hagree2⟩ := buildSceneH_frame fuel' childAddrs
            ((buildMeshH t p r s parent h).length)
            (addChildH ((buildMeshH t p r s parent h) ++
                [HObj.obj3D none (0, 0, 0) (0, 0, 0) (1, 1, 1) []]) parent
              ((buildMeshH t p r s parent h).length)) n (by omega) (by omega)
          obtain ⟨hlen3, hagree3⟩ := buildSceneH_frame (fuel' + 1) rest parent
            (buildSceneH fuel' childAddrs ((buildMeshH t p r s parent h).length)
              (addChildH ((buildMeshH t p r s parent h) ++
                  [HObj.obj3D none (0, 0, 0) (0, 0, 0) (1, 1, 1) []]) parent
                ((buildMeshH t p r s parent h).length))) n (by omega) hp
          refine ⟨by omega, ?_⟩
          exact agreeBelow_trans h1agree (agreeBelow_trans hbaseagree
            (agreeBelow_trans hagree2 hagree3))
        · have hunf : buildSceneH (fuel' + 1) (a :: rest) parent h =
              buildSceneH (fuel' + 1) rest parent (buildMeshH t p r s parent h) := by
            rw [buildSceneH, ha]
            simp only [if_neg hc]
          rw [hunf]
          obtain ⟨hlen3, hagree3⟩ := buildSceneH_frame (fuel' + 1) rest parent
            (buildMeshH t p r s parent h) n (by omega) hp
          exact ⟨by omega, agreeBelow_trans h1agree hagree3⟩
  termination_by fuel comps => (fuel, comps.length)

/-- C10: materialization for export leaves the forest untouched.
In the heap model the initial heap holds the forest's component records
(each record's fields, transform tuples, and child sequence); running
`onExportBuild` — `const scene = new THREE.Scene()` followed by
`buildScene(model, scene)` — only allocates new scene objects and writes
to them, so the initial-heap prefix of the final heap is exactly the
initial heap: every pre-existing record is bit-for-bit unchanged. -/
theorem C10_materialization_frame (fuel : Nat) (roots : List Nat) (h : Heap) :
    ((onExportBuild fuel roots h).1).take h.length = h := by
  rw [onExportBuild]
  obtain ⟨hlen, hagree⟩ := buildSceneH_frame fuel roots h.length
    (h ++ [HObj.obj3D none (0, 0, 0) (0, 0, 0) (1, 1, 1) []]) h.length
    (by simp) (Nat.le_refl _)
  have hagree' : AgreeBelow h.length h
      (buildSceneH fuel roots h.length
        (h ++ [HObj.obj3D none (0, 0, 0) (0, 0, 0) (1, 1, 1) []])) :=
    agreeBelow_trans (agreeBelow_append h.length h _ (Nat.le_refl _)) hagree
  have : ∀ i : Nat, (((buildSceneH fuel roots h.length
      (h ++ [HObj.obj3D none (0, 0, 0) (0, 0, 0) (1, 1, 1) []])).take h.length)[i]? =
      h[i]?) := by
    intro i
    by_cases hi : i < h.length
    · rw [List.getElem?_take_of_lt hi]
      exact hagree' i hi
    · have h1 : ((buildSceneH fuel roots h.length
          (h ++ [HObj.obj3D none (0, 0, 0) (0, 0, 0) (1, 1, 1) []])).take h.length)[i]? =
          (none : Option HObj) :=
        List.getElem?_eq_none (by simp [List.length_take]; omega)
      have h2 : h[i]? = (none : Option HObj) := List.getElem?_eq_none (by omega)
      rw [h1, h2]
  exact List.ext_getElem? this

-- ----------------------
-- Id multiset bookkeeping (for the uniqueness invariant)
-- ----------------------

theorem countId_eq_count (F : List Node) (s : String) :
    countId F s = (idsOf F).count s := by
  induction F using forest_ind with
  | hnil => simp [countId, idsOf]
  | hcons i n t po ro sc ch rest ihch ihrest =>
    rw [countId, idsOf]
    rw [List.count_cons, List.count_append, ihch, ihrest]
    by_cases h : i = s
    · simp [h]
      omega
    · simp [h, Ne.symm h]

theorem idsOf_eq_flatMap (F : List Node) : idsOf F = F.flatMap nodeIds := by
  induction F with
  | nil => simp [idsOf]
  | cons c rest ih =>
    rw [idsOf_cons, ih, List.flatMap_cons]

theorem idsOf_perm_congr {L L' : List Node} (h : List.Perm L L') :
    List.Perm (idsOf L) (idsOf L') := by
  rw [idsOf_eq_flatMap, idsOf_eq_flatMap]
  exact h.flatMap_right nodeIds

theorem nodeIds_setChildren (c : Node) (L : List Node) :
    nodeIds (c.setChildren L) = c.id :: idsOf L := by
  cases c
  rfl

/-- One-level version of `setPath_ids`: the ids of a forest split around
the subtree of the node at index `j`, and replacing that node replaces
exactly that segment. -/
theorem level_ids : ∀ (F : List Node) (j : Nat) (X : Node), F[j]? = some X →
    ∃ A B, idsOf F = A ++ nodeIds X ++ B ∧
      ∀ Y, idsOf (F.set j Y) = A ++ nodeIds Y ++ B
  | [], j, X, h => by simp at h
  | c :: rest, 0, X, h => by
    simp only [List.getElem?_cons_zero, Option.some.injEq] at h
    subst h
    exact ⟨[], idsOf rest, by simp [idsOf_cons], fun Y => by simp [idsOf_cons]⟩
  | c :: rest, j + 1, X, h => by
    have h' : rest[j]? = some X := by simpa using h
    obtain ⟨A, B, hids, hset⟩ := level_ids rest j X h'
    refine ⟨nodeIds c ++ A, B, ?_, fun Y => ?_⟩
    · rw [idsOf_cons, hids]
      simp [List.append_assoc]
    · rw [List.set_cons_succ, idsOf_cons, hset Y]
      simp [List.append_assoc]

/-- The ids of a forest split around the subtree at a path, and `setPath`
replaces exactly that segment. -/
theorem setPath_ids : ∀ (F : List Node) (p : List Nat) (X : Node),
    getPath F p = some X →
    ∃ A B, idsOf F = A ++ nodeIds X ++ B ∧
      ∀ Y, idsOf (setPath Y F p) = A ++ nodeIds Y ++ B
  | F, [], X, h => by rw [getPath] at h; exact absurd h (by simp)
  | F, [j], X, h => by
    rw [getPath] at h
    obtain ⟨A, B, hids, hset⟩ := level_ids F j X h
    exact ⟨A, B, hids, fun Y => by rw [setPath]; exact hset Y⟩
  | F, j :: k :: p', X, h => by
    rw [getPath] at h
    cases hj : F[j]? with
    | none => rw [hj] at h; exact absurd h (by simp)
    | some c =>
      rw [hj] at h
      obtain ⟨A', B', hids', hset'⟩ := setPath_ids c.children (k :: p') X h
      obtain ⟨A, B, hids, hset⟩ := level_ids F j c hj
      have hnc : nodeIds c = c.id :: idsOf c.children := rfl
      refine ⟨A ++ (c.id :: A'), B' ++ B, ?_, fun Y => ?_⟩
      · rw [hids, hnc, hids']
        simp [List.append_assoc]
      · rw [setPath, hj, hset (c.setChildren (setPath Y c.children (k :: p'))),
          nodeIds_setChildren, hset' Y]
        simp [List.append_assoc]

/-- Replacing a contiguous segment of a duplicate-free list by a
duplicate-free segment whose entries either come from the replaced
segment or are globally fresh keeps the list duplicate-free. -/
theorem nodup_replace_segment (A B L L' : List String)
    (h : (A ++ L ++ B).Nodup) (hL' : L'.Nodup)
    (hsub : ∀ x ∈ L', x ∈ L ∨ x ∉ A ++ L ++ B) :
    (A ++ L' ++ B).Nodup := by
  rw [List.append_assoc] at h
  rw [List.append_assoc]
  rw [List.nodup_append] at h
  obtain ⟨hA, hLB, hALB⟩ := h
  rw [List.nodup_append] at hLB
  obtain ⟨hL, hB, hLdB⟩ := hLB
  rw [List.nodup_append, List.nodup_append]
  refine ⟨hA, ⟨hL', hB, ?_⟩, ?_⟩
  · intro x hx hxB
    rcases hsub x hx with hmem | hnot
    · exact hLdB hmem hxB
    · exact hnot (by simp [hxB])
  · intro x hxA hxLB
    rcases List.mem_append.mp hxLB with hxL' | hxB
    · rcases hsub x hxL' with hmem | hnot
      · exact hALB hxA (List.mem_append.mpr (Or.inl hmem))
      · exact hnot (by simp [hxA])
    · exact hALB hxA (List.mem_append.mpr (Or.inr hxB))

/-- A `reorderAux` run that produces a representable forest permutes the
multiset of ids (it only moves siblings around). -/
theorem reorderAux_perm_ids (pid : String) (f t : Nat) (F : List Node) :
    ∀ F', reorderAux pid f t F = some F' → List.Perm (idsOf F') (idsOf F) := by
  induction F using forest_ind with
  | hnil =>
    intro F' h
    rw [reorderAux] at h
    cases h
    exact List.Perm.refl _
  | hcons i n ty po ro sc ch rest ihch ihrest =>
    intro F' h
    rw [reorderAux] at h
    by_cases hi : i = pid
    · rw [if_pos hi] at h
      cases hm : asNodeList (reorderList f t ch) with
      | none => rw [hm] at h; simp at h
      | some ch' =>
        have hf : f < ch.length := by
          by_contra hge
          rw [reorderList_oob ch f t (by omega),
            asNodeList_mem_none _ (by simp)] at hm
          exact Option.noConfusion hm
        have hch' : ch' = specMove f t ch := by
          rw [reorderList_eq_specMove f t ch hf, asNodeList_map_some] at hm
          exact (Option.some.inj hm).symm
        rw [hm] at h
        cases hr : reorderAux pid f t rest with
        | none => rw [hr] at h; simp at h
        | some rest' =>
          rw [hr] at h
          simp only [Option.map_some', Option.some.injEq] at h
          subst h
          rw [idsOf, idsOf]
          refine List.Perm.cons i (List.Perm.append ?_ (ihrest rest' hr))
          rw [hch']
          exact idsOf_perm_congr (specMove_perm f t ch hf)
    · rw [if_neg hi] at h
      by_cases hlen : ch.length > 0
      · rw [if_pos hlen] at h
        cases hc : reorderAux pid f t ch with
        | none => rw [hc] at h; simp at h
        | some ch' =>
          rw [hc] at h
          cases hr : reorderAux pid f t rest with
          | none => rw [hr] at h; simp at h
          | some rest' =>
            rw [hr] at h
            simp only [Option.map_some', Option.some.injEq] at h
            subst h
            rw [idsOf, idsOf]
            exact List.Perm.cons i (List.Perm.append (ihch ch' hc) (ihrest rest' hr))
      · rw [if_neg hlen] at h
        cases hr : reorderAux pid f t rest with
        | none => rw [hr] at h; simp at h
        | some rest' =>
          rw [hr] at h
          simp only [Option.some.injEq] at h
          subst h
          rw [idsOf, idsOf]
          exact List.Perm.cons i (List.Perm.append (List.Perm.refl _) (ihrest rest' hr))

/-- A `reorder` run that produces a representable forest permutes the
multiset of ids. -/
theorem reorder_perm_ids (pO : Option String) (f t : Nat) (F F' : List Node)
    (h : reorder pO f t F = some F') : List.Perm (idsOf F') (idsOf F) := by
  have hroot : asNodeList (reorderList f t F) = some F' →
      List.Perm (idsOf F') (idsOf F) := by
    intro h'
    by_cases hf : f < F.length
    · rw [reorderList_eq_specMove f t F hf, asNodeList_map_some] at h'
      rw [← Option.some.inj h']
      exact idsOf_perm_congr (specMove_perm f t F hf)
    · rw [reorderList_oob F f t (by omega), asNodeList_mem_none _ (by simp)] at h'
      exact absurd h' (by simp)
  cases pO with
  | some pid =>
    rw [reorder] at h
    by_cases hne : pid = ""
    · rw [if_pos hne] at h
      exact hroot h
    · rw [if_neg hne] at h
      exact reorderAux_perm_ids pid f t F F' h
  | none =>
    rw [reorder] at h
    exact hroot h

/-- A valid `updateById` step — the target id exists and the replacement's
subtree ids are duplicate-free and capture nothing outside the replaced
subtree — preserves forest-wide id uniqueness. -/
theorem update_preserves_nodup (u : Node) (F : List Node) (x : Node)
    (hN : (idsOf F).Nodup) (hfind : findComponentById F u.id = some x)
    (hu1 : (nodeIds u).Nodup)
    (hu2 : ∀ s ∈ nodeIds u, s ∈ nodeIds x ∨ s ∉ idsOf F) :
    (idsOf (updateRecursive u F)).Nodup := by
  have hmem : u.id ∈ idsOf F := by
    by_contra hm
    rw [(find_eq_none_iff F u.id).mpr hm] at hfind
    exact Option.noConfusion hfind
  have hcount : countId F u.id = 1 := by
    rw [countId_eq_count]
    have hle := List.nodup_iff_count_le_one.mp hN u.id
    have hpos : 0 < (idsOf F).count u.id := List.count_pos_iff.mpr hmem
    omega
  obtain ⟨p, X, hp, hfindX, hXid, hupd⟩ := update_eq_setPath u F hcount
  have hXx : x = X := by
    rw [hfind] at hfindX
    exact Option.some.inj hfindX
  obtain ⟨A, B, hids, hset⟩ := setPath_ids F p X hp
  rw [hupd, hset u]
  apply nodup_replace_segment A B (nodeIds X) (nodeIds u) (by rw [← hids]; exact hN) hu1
  intro s hs
  rcases hu2 s hs with hin | hout
  · left
    rw [← hXx]
    exact hin
  · right
    rw [← hids]
    exact hout

theorem memStr_iff (s : String) (l : List String) : memStr s l = true ↔ s ∈ l := by
  induction l with
  | nil => simp [memStr]
  | cons x rest ih =>
    rw [memStr, Bool.or_eq_true, ih, List.mem_cons]
    simp only [beq_iff_eq]
    exact or_congr eq_comm Iff.rfl

theorem memStr_false_iff (s : String) (l : List String) : memStr s l = false ↔ s ∉ l := by
  rw [Bool.eq_false_iff, Ne, memStr_iff]

theorem nodupStr_iff (l : List String) : nodupStr l = true ↔ l.Nodup := by
  induction l with
  | nil => simp [nodupStr]
  | cons x rest ih =>
    rw [nodupStr, Bool.and_eq_true, Bool.not_eq_true', memStr_false_iff, ih,
      List.nodup_cons]

/-- Every valid action (in the sense of `validOp`) preserves forest-wide
id uniqueness; hence so does any valid sequence. -/
theorem validOps_nodup (ops : List Op) : ∀ F, (idsOf F).Nodup →
    validOps F ops = true → (idsOf (ops.foldl applyOp F)).Nodup := by
  induction ops with
  | nil =>
    intro F hN _
    simpa using hN
  | cons op ops ih =>
    intro F hN hv
    rw [validOps, Bool.and_eq_true] at hv
    rw [List.foldl_cons]
    refine ih (applyOp F op) ?_ hv.2
    have hv1 := hv.1
    cases op with
    | add i k =>
      rw [validOp, Bool.not_eq_true'] at hv1
      have hfresh : i ∉ idsOf F := (memStr_false_iff i (idsOf F)).mp hv1
      have hids : idsOf (applyOp F (Op.add i k)) = idsOf F ++ [i] := by
        rw [applyOp, addPrimitive, idsOf_append]
        simp [idsOf, newComponent]
      rw [hids, List.nodup_append]
      refine ⟨hN, by simp, ?_⟩
      intro s hsF hsi
      rw [List.mem_singleton] at hsi
      exact hfresh (hsi ▸ hsF)
    | update u =>
      rw [validOp] at hv1
      cases hfind : findComponentById F u.id with
      | none => rw [hfind] at hv1; exact absurd hv1 (by simp)
      | some x =>
        rw [hfind, Option.map_some', Option.getD_some, Bool.and_eq_true] at hv1
        have hu1 : (nodeIds u).Nodup := (nodupStr_iff (nodeIds u)).mp hv1.1
        have hu2 : ∀ s ∈ nodeIds u, s ∈ nodeIds x ∨ s ∉ idsOf F := by
          intro s hs
          have hall := List.all_eq_true.mp hv1.2 s hs
          rw [Bool.or_eq_true, Bool.not_eq_true'] at hall
          rcases hall with hmem | hnot
          · exact Or.inl ((memStr_iff s (nodeIds x)).mp hmem)
          · exact Or.inr ((memStr_false_iff s (idsOf F)).mp hnot)
        rw [applyOp]
        exact update_preserves_nodup u F x hN hfind hu1 hu2
    | reorderOp pO f t =>
      rw [applyOp]
      cases hr : reorder pO f t F with
      | none => simpa using hN
      | some F' =>
        rw [Option.getD_some]
        exact ((reorder_perm_ids pO f t F F' hr).nodup_iff).mpr hN

/-- C6 (amended): starting from the empty forest, every sequence of
`addRoot` (with a freshly generated id that does not collide, the
collision-resistance the spec assumes of the generator), `updateById`
(with a replacement whose id is already in the forest and whose own
subtree ids are duplicate-free and capture no id living outside the
replaced node's subtree), and `reorder` (unrestricted) keeps the forest
free of duplicate ids. -/
theorem C6_amended_id_uniqueness (ops : List Op) (h : validOps [] ops = true) :
    (idsOf (runOps ops)).Nodup := by
  rw [runOps]
  refine validOps_nodup ops [] ?_ h
  rw [idsOf]
  exact List.nodup_nil

/-- A replacement record whose id "a" is already in the forest but whose
children smuggle in a second node with id "b". -/
def uBad : Node :=
  .mk "a" "A" CType.group (0, 0, 0) (0, 0, 0) (1, 1, 1)
    [.mk "b" "B" CType.group (0, 0, 0) (0, 0, 0) (1, 1, 1) []]

/-- C6 as literally stated is false: starting from the empty forest, add
two roots under fresh ids "a" and "b" (so both adds behave as the claim
assumes), then call `updateById` with `uBad`, whose id "a" is already in
the forest — the only restriction the claim places on updates. The
resulting forest holds two distinct nodes with id "b". -/
theorem C6_counterexample :
    ("a" ∉ idsOf (runOps [])) ∧
      ("b" ∉ idsOf (runOps [Op.add "a" PrimitiveType.cube])) ∧
      uBad.id ∈ idsOf (runOps [Op.add "a" PrimitiveType.cube,
        Op.add "b" PrimitiveType.cube]) ∧
      ¬ (idsOf (runOps [Op.add "a" PrimitiveType.cube, Op.add "b" PrimitiveType.cube,
          Op.update uBad])).Nodup := by
  refine ⟨?_, ?_, ?_, ?_⟩ <;>
    simp [runOps, applyOp, addPrimitive, newComponent, updateRecursive, idsOf,
      uBad, jsCapitalize, kindString]

/-- A well-behaved action sequence: two adds under fresh ids, a property
edit of the sphere (children kept), and a root reorder. -/
def opsEx : List Op :=
  [.add "a" PrimitiveType.cube, .add "b" PrimitiveType.sphere,
   .update (Node.mk "b" "Ball" (.prim .sphere) (1, 0, 0) (0, 0, 0) (1, 1, 1) []),
   .reorderOp none 1 0]

theorem C6_amended_id_uniqueness_witness : (idsOf (runOps opsEx)).Nodup :=
  C6_amended_id_uniqueness opsEx (by
    simp [opsEx, validOps, validOp, applyOp, addPrimitive, newComponent,
      updateRecursive, idsOf, nodeIds, findComponentById, jsCapitalize,
      kindString, memStr, nodupStr])

end ThreeApp
